import Mathlib

/-!
Shallow embedding of the heartbeat backend (`backend/main.go` and the extended
revision of the same file that adds the confirmed-email table and the rate
limiter).  Go maps are modelled as association lists with insert-or-replace
assignment, machine integers (`int64`, `int`) as `Int`, strings as `String`,
and the probe loop of `pingService` as a pure function over the list of
transport outcomes produced by the successive HTTP attempts.
-/

namespace Heartbeat

/-- Go map assignment `m[k] = v`: replace the binding if the key is present,
otherwise add it. -/
def insertMap {α β : Type} [DecidableEq α] : List (α × β) → α → β → List (α × β)
  | [], k, v => [(k, v)]
  | (k', v') :: rest, k, v =>
    if k' = k then (k, v) :: rest else (k', v') :: insertMap rest k v

/-- Go map read `m[k]` as an option (`ok` bit of the two-result form). -/
def lookupMap {α β : Type} [DecidableEq α] : List (α × β) → α → Option β
  | [], _ => none
  | (k', v) :: rest, k => if k' = k then some v else lookupMap rest k

/-- Keys of a modelled Go map. -/
def keysMap {α β : Type} (m : List (α × β)) : List α :=
  m.map (fun kv => kv.1)

theorem lookupMap_insertMap_self {α β : Type} [DecidableEq α]
    (m : List (α × β)) (k : α) (v : β) :
    lookupMap (insertMap m k v) k = some v := by
  induction m with
  | nil => simp [insertMap, lookupMap]
  | cons kv rest ih =>
    by_cases h : kv.1 = k
    · simp [insertMap, lookupMap, h]
    · simp [insertMap, lookupMap, h, ih]

theorem lookupMap_insertMap_ne {α β : Type} [DecidableEq α]
    (m : List (α × β)) (k k' : α) (v : β) (h : k ≠ k') :
    lookupMap (insertMap m k v) k' = lookupMap m k' := by
  induction m with
  | nil => simp [insertMap, lookupMap, h]
  | cons kv rest ih =>
    by_cases hk : kv.1 = k
    · simp [insertMap, lookupMap, hk, h]
    · simp [insertMap, lookupMap, hk, ih]

/-- Go struct `CheckResult` from `backend/main.go`. -/
structure CheckResult where
  ts : Int
  status : String
  latencyMs : Int
  code : Int
  error : String
  deriving Repr, DecidableEq

/-- Go struct `Incident` from `backend/main.go`. -/
structure Incident where
  id : String
  ts : Int
  projectId : String
  projectName : String
  status : String
  message : String
  deriving Repr, DecidableEq

/-- Go struct `Project` from `backend/main.go` (fields used by the core). -/
structure Project where
  id : String
  name : String
  url : String
  status : String
  latency : Int
  deriving Repr, DecidableEq

/-- Configuration fields of `Config` that the probe loop consumes. -/
structure Config where
  pingRetries : Nat
  degradedMs : Int
  deriving Repr, DecidableEq

/-- Mutable state of the Go `Store` (the `sync.Mutex` serialises every
operation, so each operation is modelled as a pure state transformer). -/
structure Store where
  historyByID : List (String × List CheckResult)
  lastStatusByID : List (String × String)
  incidents : List Incident
  confirmedEmails : List (String × Int)
  rateBuckets : List (String × List Int)
  deriving Repr, DecidableEq

/-- Go `NewStore`: empty maps and lists. -/
def NewStore : Store :=
  { historyByID := [], lastStatusByID := [], incidents := [],
    confirmedEmails := [], rateBuckets := [] }

/-- Go `statusMessage`. -/
def statusMessage (status : String) : String :=
  if status = "DOWN" then "Service went DOWN"
  else if status = "HEALTHY" then "Service recovered"
  else if status = "DEGRADED" then "Service is DEGRADED"
  else "Status changed"

/-- Incident id built by `addCheck`:
`fmt.Sprintf("%d_%s_%s", time.Now().UnixMilli(), project.ID, check.Status)`. -/
def incidentId (nowMs : Int) (projectId status : String) : String :=
  toString nowMs ++ "_" ++ projectId ++ "_" ++ status

/-- History cap of `addCheck`:
`if len(existing) > 500 { existing = existing[len(existing)-500:] }`. -/
def trimHistory (l : List CheckResult) : List CheckResult :=
  if l.length > 500 then l.drop (l.length - 500) else l

/-- Incident cap of `addCheck`:
`if len(s.incidents) > 200 { s.incidents = s.incidents[:200] }`. -/
def trimIncidents (l : List Incident) : List Incident :=
  if l.length > 200 then l.take 200 else l

/-- Incident record constructed by `addCheck` on a status transition. -/
def mkIncident (nowMs : Int) (project : Project) (status : String) : Incident :=
  { id := incidentId nowMs project.id status
    ts := nowMs
    projectId := project.id
    projectName := project.name
    status := status
    message := statusMessage status }

/-- Go `(*Store).addCheck`.  The wall clock read `time.Now().UnixMilli()` is
passed in as `nowMs`. -/
def Store.addCheck (s : Store) (nowMs : Int) (project : Project)
    (check : CheckResult) : Store × Option Incident :=
  let existing :=
    trimHistory (((lookupMap s.historyByID project.id).getD []) ++ [check])
  let hist := insertMap s.historyByID project.id existing
  let last := insertMap s.lastStatusByID project.id check.status
  match lookupMap s.lastStatusByID project.id with
  | some prevStatus =>
    if prevStatus ≠ check.status then
      let incident := mkIncident nowMs project check.status
      ({ s with historyByID := hist, lastStatusByID := last,
                incidents := trimIncidents (incident :: s.incidents) },
        some incident)
    else
      ({ s with historyByID := hist, lastStatusByID := last }, none)
  | none =>
    ({ s with historyByID := hist, lastStatusByID := last }, none)

/-- Go `(*Store).getHistory`. -/
def Store.getHistory (s : Store) (projectID : String) (limit : Int) :
    List CheckResult :=
  let h := (lookupMap s.historyByID projectID).getD []
  let lim : Nat :=
    if limit ≤ 0 ∨ (h.length : Int) < limit then h.length else limit.toNat
  h.drop (h.length - lim)

/-- Go `(*Store).getIncidents`. -/
def Store.getIncidents (s : Store) (limit : Int) : List Incident :=
  let lim : Nat :=
    if limit ≤ 0 ∨ (s.incidents.length : Int) < limit then s.incidents.length
    else limit.toNat
  s.incidents.take lim

/-- Go `(*Store).allowAction`; `nowMs` stands for `time.Now().UnixMilli()`. -/
def Store.allowAction (s : Store) (nowMs : Int) (key : String)
    (windowMs : Int) (limit : Int) : Store × Bool :=
  let cutoff := nowMs - windowMs
  let items := (lookupMap s.rateBuckets key).getD []
  let filtered := items.filter (fun ts => cutoff ≤ ts)
  if limit ≤ (filtered.length : Int) then
    ({ s with rateBuckets := insertMap s.rateBuckets key filtered }, false)
  else
    ({ s with rateBuckets := insertMap s.rateBuckets key (filtered ++ [nowMs]) },
      true)

/-- Transport-layer result of one `client.Get(p.URL)` call: either an error
(`err != nil`, carrying `err.Error()`) or a response with an HTTP status
code. -/
inductive AttemptResult where
  | err (msg : String)
  | resp (code : Int)
  deriving Repr, DecidableEq

/-- One iteration of the retry loop of `pingService`: the transport outcome
together with the measured elapsed milliseconds of this attempt. -/
structure Attempt where
  outcome : AttemptResult
  latencyMs : Int
  deriving Repr, DecidableEq

/-- Loop-carried variables `lastErr`, `lastCode`, `latencyMs` of
`pingService`. -/
structure LoopState where
  lastErr : Option String
  lastCode : Int
  latencyMs : Int
  deriving Repr, DecidableEq

/-- Retry loop of `pingService`: each iteration records the attempt latency,
stores the status code when a response arrived, breaks on a response with
code < 400, and otherwise stores the attempt error and continues.  The input
list holds the transport outcomes the network would produce for the successive
attempts (one per loop iteration, `cfg.PingRetries` many). -/
def pingLoop : List Attempt → LoopState → LoopState
  | [], st => st
  | a :: rest, st =>
    let st := { st with latencyMs := a.latencyMs }
    match a.outcome with
    | AttemptResult.resp code =>
      if code < 400 then { st with lastErr := none, lastCode := code }
      else pingLoop rest { st with lastErr := none, lastCode := code }
    | AttemptResult.err m => pingLoop rest { st with lastErr := some m }

/-- Result of `pingService`: the status and latency written to the `Project`
plus the `CheckResult` handed to `addCheck`. -/
structure PingOutcome where
  status : String
  projLatency : Int
  check : CheckResult
  deriving Repr, DecidableEq

/-- Classification tail of `pingService` (after the retry loop). -/
def classify (cfg : Config) (nowMs : Int) (st : LoopState) : PingOutcome :=
  if st.lastErr ≠ none ∨ 400 ≤ st.lastCode then
    { status := "DOWN", projLatency := 0,
      check := { ts := nowMs, status := "DOWN", latencyMs := 0,
                 code := st.lastCode, error := (st.lastErr).getD "" } }
  else if cfg.degradedMs ≤ st.latencyMs then
    { status := "DEGRADED", projLatency := st.latencyMs,
      check := { ts := nowMs, status := "DEGRADED", latencyMs := st.latencyMs,
                 code := st.lastCode, error := "" } }
  else
    { status := "HEALTHY", projLatency := st.latencyMs,
      check := { ts := nowMs, status := "HEALTHY", latencyMs := st.latencyMs,
                 code := st.lastCode, error := "" } }

/-- Go `pingService` as a pure function of the attempt outcomes (network
behaviour) and the wall clock. -/
def pingService (cfg : Config) (nowMs : Int) (attempts : List Attempt) :
    PingOutcome :=
  classify cfg nowMs (pingLoop attempts { lastErr := none, lastCode := 0, latencyMs := 0 })

/-- Attempt at which the retry loop stops: the first attempt whose response
code is < 400, or the last attempt when none succeeds. -/
def finalAttempt : List Attempt → Option Attempt
  | [] => none
  | [a] => some a
  | a :: b :: rest =>
    match a.outcome with
    | AttemptResult.resp code =>
      if code < 400 then some a else finalAttempt (b :: rest)
    | AttemptResult.err _ => finalAttempt (b :: rest)

/-- An attempt the loop counts as failed: transport error or code ≥ 400. -/
def attemptFailed (a : Attempt) : Prop :=
  match a.outcome with
  | AttemptResult.err _ => True
  | AttemptResult.resp code => 400 ≤ code

instance (a : Attempt) : Decidable (attemptFailed a) := by
  unfold attemptFailed
  match a.outcome with
  | AttemptResult.err _ => exact inferInstanceAs (Decidable True)
  | AttemptResult.resp code => exact inferInstanceAs (Decidable (400 ≤ code))

/-- Status code held in `lastCode` after a loop run in which no attempt
succeeded: the code of the last attempt that received a response, 0 when
every attempt was a transport error. -/
def lastRespCode (attempts : List Attempt) : Int :=
  attempts.foldl
    (fun acc a =>
      match a.outcome with
      | AttemptResult.resp code => code
      | AttemptResult.err _ => acc) 0

/-- Error text stored in the `CheckResult` of a fully failed probe:
`if lastErr != nil { check.Error = lastErr.Error() }`, so the message of the
last attempt when that attempt was a transport error and empty otherwise. -/
def errorOfLast (attempts : List Attempt) : String :=
  match attempts.getLast? with
  | some a =>
    match a.outcome with
    | AttemptResult.err m => m
    | AttemptResult.resp _ => ""
  | none => ""

/-- Iterated `addCheck` for a fixed target, as in consecutive probe cycles. -/
def runChecks (s : Store) (nowMs : Int) (p : Project)
    (cs : List CheckResult) : Store :=
  cs.foldl (fun st c => (st.addCheck nowMs p c).1) s

/-- Iterated `addCheck` across arbitrary targets, clocks and checks. -/
def runOps (s : Store) (ops : List (Int × Project × CheckResult)) : Store :=
  ops.foldl (fun st op => (st.addCheck op.1 op.2.1 op.2.2).1) s

/-- ASCII model of Go `unicode.IsSpace` (the white space code points that
`strings.TrimSpace` removes, restricted to Latin-1). -/
def isSpaceChar (c : Char) : Bool :=
  c.toNat = 32 || c.toNat = 9 || c.toNat = 10 || c.toNat = 11 ||
  c.toNat = 12 || c.toNat = 13 || c.toNat = 133 || c.toNat = 160

/-- ASCII model of Go `strings.ToLower` on one code point. -/
def toLowerChar (c : Char) : Char :=
  if 65 ≤ c.toNat ∧ c.toNat ≤ 90 then Char.ofNat (c.toNat + 32) else c

/-- Go `strings.TrimSpace`: drop white space from both ends. -/
def trimSpace (s : String) : String :=
  ⟨ List.rdropWhile isSpaceChar (s.data.dropWhile isSpaceChar)⟩

/-- Go `strings.ToLower` (ASCII model). -/
def toLowerString (s : String) : String :=
  ⟨s.data.map toLowerChar⟩

/-- Email key normalisation used by the confirmed-email table:
`strings.ToLower(strings.TrimSpace(k))`. -/
def normalizeEmail (e : String) : String :=
  toLowerString (trimSpace e)

/-- Go `(*Store).isConfirmed`. -/
def Store.isConfirmed (s : Store) (email : String) : Bool :=
  (lookupMap s.confirmedEmails (normalizeEmail email)).isSome

/-- Go `(*Store).markConfirmed` (in-memory part; the disk write is modelled
by `Store.persistConfirmedToDisk` on the resulting store). -/
def Store.markConfirmed (s : Store) (nowMs : Int) (email : String) : Store :=
  { s with confirmedEmails := insertMap s.confirmedEmails (normalizeEmail email) nowMs }

/-- Go `(*Store).persistConfirmedToDiskLocked`: the JSON object written to
disk, modelled as the list of key/value pairs of the table. -/
def Store.persistConfirmedToDisk (s : Store) : Option (List (String × Int)) :=
  some s.confirmedEmails

/-- Go `(*Store).loadConfirmedFromDisk`: `none` models a missing or corrupt
file (read or unmarshal error), in which case the store is left untouched;
otherwise every entry is folded in with a normalised key. -/
def Store.loadConfirmedFromDisk (s : Store)
    (disk : Option (List (String × Int))) : Store :=
  match disk with
  | none => s
  | some m =>
    { s with confirmedEmails :=
        (m.foldl (fun acc kv => insertMap acc (normalizeEmail kv.1) kv.2)
          s.confirmedEmails) }

/-- Sequence of `allowAction` calls for a fixed key, returning the final
store and the per-call verdicts. -/
def runAllow (s : Store) (key : String) (windowMs limit : Int) :
    List Int → Store × List Bool
  | [] => (s, [])
  | t :: ts =>
    let r1 := s.allowAction t key windowMs limit
    let r2 := runAllow r1.1 key windowMs limit ts
    (r2.1, r1.2 :: r2.2)

/-- Timestamps of the calls that were allowed (paired call times/verdicts). -/
def allowedTimes (calls : List Int) (oks : List Bool) : List Int :=
  ((calls.zip oks).filter (fun q => q.2)).map (fun q => q.1)

/-- Membership of a timestamp in the closed sliding window `[T - w, T]`
(`allowAction` retains timestamps with `ts >= cutoff`). -/
def inWindow (w T t : Int) : Bool :=
  decide (T - w ≤ t ∧ t ≤ T)

/-- Consistency of the last-status table with the history map: an entry
exists exactly for targets with non-empty history and holds the status of
the most recent check. -/
def StoreInv (s : Store) : Prop :=
  ∀ id, lookupMap s.lastStatusByID id =
    (((lookupMap s.historyByID id).getD []).getLast?).map (fun c => c.status)

/-- Statuses a check can carry (classifications produced by `pingService`). -/
def coreStatuses : List String :=
  ["DOWN", "HEALTHY", "DEGRADED"]

/-- Well-formedness of the confirmed-email table: keys are distinct and
already normalised (as guaranteed by `markConfirmed` and
`loadConfirmedFromDisk`, which always insert normalised keys). -/
def ConfirmedInv (s : Store) : Prop :=
  (keysMap s.confirmedEmails).Nodup ∧
  ∀ k ∈ keysMap s.confirmedEmails, normalizeEmail k = k

/-- Sample store with one confirmed email (inserted with normalisation). -/
def sConf : Store := NewStore.markConfirmed 5 " A@B.c "

/-- Sample target used to instantiate theorems on concrete inputs. -/
def pAlpha : Project :=
  { id := "svc", name := "Alpha", url := "http://a", status := "", latency := 0 }

/-- Sample target with the same id as `pAlpha` but a different display name
(the project list is re-fetched per request, so the name can change). -/
def pBeta : Project :=
  { id := "svc", name := "Beta", url := "http://a", status := "", latency := 0 }

/-- Sample healthy check. -/
def chHealthy : CheckResult :=
  { ts := 0, status := "HEALTHY", latencyMs := 5, code := 200, error := "" }

/-- Sample failed check. -/
def chDown : CheckResult :=
  { ts := 0, status := "DOWN", latencyMs := 0, code := 503, error := "" }

/-- Configuration with 3 retries, as in the spec scenario with 3 attempts. -/
def cfg3 : Config :=
  { pingRetries := 3, degradedMs := 1200 }

/-- Attempt that receives a 503 response after 50 measured milliseconds. -/
def att503 : Attempt :=
  { outcome := AttemptResult.resp 503, latencyMs := 50 }

/-- Store after a first HEALTHY check of target `svc` at millisecond 1000. -/
def sColl1 : Store := (NewStore.addCheck 1000 pAlpha chHealthy).1

/-- Store after `svc` transitioned HEALTHY → DOWN in the same millisecond. -/
def sColl2 : Store := (sColl1.addCheck 1000 pAlpha chDown).1

/-- Incident produced by the first HEALTHY → DOWN transition of `svc`. -/
def iColl1 : Option Incident := (sColl1.addCheck 1000 pAlpha chDown).2

/-- Store after `svc` recovered (DOWN → HEALTHY), still at millisecond 1000. -/
def sColl3 : Store := (sColl2.addCheck 1000 pAlpha chHealthy).1

/-- Incident produced by the second HEALTHY → DOWN transition of `svc` in the
same millisecond, with the target's display name changed upstream. -/
def iColl2 : Option Incident := (sColl3.addCheck 1000 pBeta chDown).2

/-- History-trimming step of `addCheck` expressed through `List.rtake`. -/
theorem trimHistory_eq_rtake (e : List CheckResult) :
    trimHistory e = List.rtake e 500 := by
  unfold trimHistory List.rtake
  split
  · rfl
  · rw [Nat.sub_eq_zero_of_le (by omega), List.drop_zero]

/-- Incident-trimming step of `addCheck` expressed through `List.take`. -/
theorem trimIncidents_eq_take (l : List Incident) :
    trimIncidents l = l.take 200 := by
  unfold trimIncidents
  split
  · rfl
  · exact (List.take_of_length_le (by omega)).symm

theorem addCheck_historyByID (s : Store) (nowMs : Int) (p : Project)
    (c : CheckResult) :
    (s.addCheck nowMs p c).1.historyByID =
      insertMap s.historyByID p.id
        (List.rtake (((lookupMap s.historyByID p.id).getD []) ++ [c]) 500) := by
  rw [← trimHistory_eq_rtake]
  unfold Store.addCheck
  cases lookupMap s.lastStatusByID p.id with
  | none => rfl
  | some prev =>
    by_cases h : prev ≠ c.status <;> simp [h]

theorem addCheck_lastStatusByID (s : Store) (nowMs : Int) (p : Project)
    (c : CheckResult) :
    (s.addCheck nowMs p c).1.lastStatusByID =
      insertMap s.lastStatusByID p.id c.status := by
  unfold Store.addCheck
  cases lookupMap s.lastStatusByID p.id with
  | none => rfl
  | some prev =>
    by_cases h : prev ≠ c.status <;> simp [h]

theorem addCheck_confirmedEmails (s : Store) (nowMs : Int) (p : Project)
    (c : CheckResult) :
    (s.addCheck nowMs p c).1.confirmedEmails = s.confirmedEmails := by
  unfold Store.addCheck
  cases lookupMap s.lastStatusByID p.id with
  | none => rfl
  | some prev =>
    by_cases h : prev ≠ c.status <;> simp [h]

theorem addCheck_rateBuckets (s : Store) (nowMs : Int) (p : Project)
    (c : CheckResult) :
    (s.addCheck nowMs p c).1.rateBuckets = s.rateBuckets := by
  unfold Store.addCheck
  cases lookupMap s.lastStatusByID p.id with
  | none => rfl
  | some prev =>
    by_cases h : prev ≠ c.status <;> simp [h]

theorem addCheck_snd (s : Store) (nowMs : Int) (p : Project) (c : CheckResult) :
    (s.addCheck nowMs p c).2 =
      (match lookupMap s.lastStatusByID p.id with
       | some prev =>
         if prev ≠ c.status then some (mkIncident nowMs p c.status) else none
       | none => none) := by
  unfold Store.addCheck
  cases lookupMap s.lastStatusByID p.id with
  | none => rfl
  | some prev =>
    by_cases h : prev ≠ c.status <;> simp [h]

theorem addCheck_incidents (s : Store) (nowMs : Int) (p : Project)
    (c : CheckResult) :
    (s.addCheck nowMs p c).1.incidents =
      (match (s.addCheck nowMs p c).2 with
       | some i => (i :: s.incidents).take 200
       | none => s.incidents) := by
  rw [addCheck_snd]
  unfold Store.addCheck
  cases lookupMap s.lastStatusByID p.id with
  | none => rfl
  | some prev =>
    by_cases h : prev ≠ c.status <;> simp [h, trimIncidents_eq_take]

/-- C1: `Store.addCheck` returns an incident exactly when a previous status was
recorded for the target and it differs from the status of the new check; the
first-ever check of a target (no `lastStatusByID` entry) never yields an
incident, and in every case the `lastStatusByID` entry of the target is
overwritten with the status of the new check. -/
theorem addCheck_incident_iff_and_overwrite (s : Store) (nowMs : Int)
    (p : Project) (c : CheckResult) :
    ((s.addCheck nowMs p c).2 ≠ none ↔
      (∃ prev, lookupMap s.lastStatusByID p.id = some prev ∧ prev ≠ c.status))
    ∧ lookupMap (s.addCheck nowMs p c).1.lastStatusByID p.id = some c.status := by
  constructor
  · rw [addCheck_snd]
    cases hprev : lookupMap s.lastStatusByID p.id with
    | none => simp
    | some prev =>
      by_cases h : prev ≠ c.status <;> simp [h]
  · rw [addCheck_lastStatusByID, lookupMap_insertMap_self]

/-- Keeping the 500 most recent entries commutes with later appends: trimming
first and appending more entries retains the same final 500 entries. -/
theorem rtake_rtake_append {α : Type} (n : Nat) (xs ys : List α) :
    List.rtake (List.rtake xs n ++ ys) n = List.rtake (xs ++ ys) n := by
  rw [List.rtake_eq_reverse_take_reverse, List.rtake_eq_reverse_take_reverse,
    List.rtake_eq_reverse_take_reverse]
  rw [List.reverse_append, List.reverse_reverse, List.reverse_append]
  rw [List.take_append_eq_append_take, List.take_append_eq_append_take,
    List.take_take]
  rw [Nat.min_eq_left (Nat.sub_le n ys.reverse.length)]

theorem runChecks_nil (s : Store) (nowMs : Int) (p : Project) :
    runChecks s nowMs p [] = s := rfl

theorem runChecks_cons (s : Store) (nowMs : Int) (p : Project)
    (c : CheckResult) (cs : List CheckResult) :
    runChecks s nowMs p (c :: cs) =
      runChecks (s.addCheck nowMs p c).1 nowMs p cs := rfl

theorem length_rtake_le {α : Type} (l : List α) (n : Nat) :
    (List.rtake l n).length ≤ n := by
  unfold List.rtake
  rw [List.length_drop]
  omega

theorem rtake_of_length_le {α : Type} (l : List α) (n : Nat)
    (h : l.length ≤ n) : List.rtake l n = l := by
  unfold List.rtake
  rw [Nat.sub_eq_zero_of_le h, List.drop_zero]

theorem runChecks_hist (nowMs : Int) (p : Project) :
    ∀ (cs : List CheckResult) (s : Store),
    (((lookupMap s.historyByID p.id).getD []).length ≤ 500) →
    ((lookupMap (runChecks s nowMs p cs).historyByID p.id).getD []) =
      List.rtake (((lookupMap s.historyByID p.id).getD []) ++ cs) 500 := by
  intro cs
  induction cs with
  | nil =>
    intro s h
    rw [runChecks_nil, List.append_nil, rtake_of_length_le _ _ h]
  | cons c cs ih =>
    intro s h
    rw [runChecks_cons, ih]
    · rw [addCheck_historyByID, lookupMap_insertMap_self]
      simp only [Option.getD_some]
      rw [rtake_rtake_append]
      simp
    · rw [addCheck_historyByID, lookupMap_insertMap_self]
      simp only [Option.getD_some]
      exact length_rtake_le _ _

/-- C2: starting from a target with no stored history, N consecutive
`addCheck` calls leave exactly `min N 500` entries, namely the most recent
checks of the sequence in chronological (insertion) order — the oldest
entries are the ones evicted once the cap is exceeded. -/
theorem history_cap_and_order (s : Store) (nowMs : Int) (p : Project)
    (cs : List CheckResult)
    (h0 : ((lookupMap s.historyByID p.id).getD []) = []) :
    ((lookupMap (runChecks s nowMs p cs).historyByID p.id).getD []) =
      cs.drop (cs.length - 500)
    ∧ ((lookupMap (runChecks s nowMs p cs).historyByID p.id).getD []).length =
      min cs.length 500 := by
  have h := runChecks_hist nowMs p cs s (by rw [h0]; simp)
  rw [h0, List.nil_append] at h
  rw [h]
  constructor
  · rfl
  · unfold List.rtake
    rw [List.length_drop]
    omega

/-- Witness for `history_cap_and_order` on a fresh store and two checks. -/
theorem history_cap_and_order_witness :
    ((lookupMap NewStore.historyByID pAlpha.id).getD []) = []
    ∧ (((lookupMap (runChecks NewStore 0 pAlpha [chHealthy, chDown]).historyByID
          pAlpha.id).getD []) =
        [chHealthy, chDown].drop ([chHealthy, chDown].length - 500)
      ∧ ((lookupMap (runChecks NewStore 0 pAlpha [chHealthy, chDown]).historyByID
          pAlpha.id).getD []).length = min [chHealthy, chDown].length 500) :=
  ⟨rfl, history_cap_and_order NewStore 0 pAlpha [chHealthy, chDown] rfl⟩

theorem addCheck_incidents_le (s : Store) (nowMs : Int) (p : Project)
    (c : CheckResult) (h : s.incidents.length ≤ 200) :
    (s.addCheck nowMs p c).1.incidents.length ≤ 200 := by
  rw [addCheck_incidents]
  cases (s.addCheck nowMs p c).2 with
  | some i =>
    simp only [List.length_take]
    omega
  | none => exact h

theorem runOps_incidents_le :
    ∀ (ops : List (Int × Project × CheckResult)) (s : Store),
    s.incidents.length ≤ 200 → (runOps s ops).incidents.length ≤ 200 := by
  intro ops
  induction ops with
  | nil => intro s h; exact h
  | cons op ops ih =>
    intro s h
    exact ih _ (addCheck_incidents_le s op.1 op.2.1 op.2.2 h)

/-- C7: the incident list never exceeds 200 entries under any sequence of
`addCheck` calls, new incidents are prepended (most-recent-first) with the
oldest entries dropped beyond the cap, and `getIncidents` returns the first
`min limit available` entries in stored order — the whole list when the
limit is non-positive or exceeds the available count. -/
theorem incidents_cap_order_getIncidents
    (ops : List (Int × Project × CheckResult)) (s : Store) (nowMs : Int)
    (p : Project) (c : CheckResult) (limit : Int) :
    (runOps NewStore ops).incidents.length ≤ 200
    ∧ (s.incidents.length ≤ 200 →
        (s.addCheck nowMs p c).1.incidents.length ≤ 200)
    ∧ ((s.addCheck nowMs p c).1.incidents =
        (match (s.addCheck nowMs p c).2 with
         | some i => (i :: s.incidents).take 200
         | none => s.incidents))
    ∧ (0 < limit → s.getIncidents limit = s.incidents.take limit.toNat)
    ∧ ((limit ≤ 0 ∨ (s.incidents.length : Int) ≤ limit) →
        s.getIncidents limit = s.incidents) := by
  refine ⟨runOps_incidents_le ops NewStore (by simp [NewStore]),
    addCheck_incidents_le s nowMs p c,
    addCheck_incidents s nowMs p c, ?_, ?_⟩
  · intro hpos
    unfold Store.getIncidents
    split
    · next hc =>
      rcases hc with hc | hc
      · omega
      · rw [List.take_length, List.take_of_length_le (by omega)]
    · rfl
  · intro hall
    unfold Store.getIncidents
    split
    · exact List.take_length _
    · next hc =>
      rcases hall with hall | hall
      · omega
      · rw [List.take_of_length_le (by omega)]

/-- Witness for `incidents_cap_order_getIncidents` on concrete inputs. -/
theorem incidents_cap_order_getIncidents_witness :
    NewStore.incidents.length ≤ 200
    ∧ 0 < (1 : Int)
    ∧ (runOps NewStore [(0, pAlpha, chHealthy)]).incidents.length ≤ 200
    ∧ NewStore.getIncidents 1 = NewStore.incidents.take (1 : Int).toNat :=
  ⟨by decide, by decide,
    (incidents_cap_order_getIncidents [(0, pAlpha, chHealthy)] NewStore 0
      pAlpha chHealthy 1).1,
    (incidents_cap_order_getIncidents [(0, pAlpha, chHealthy)] NewStore 0
      pAlpha chHealthy 1).2.2.2.1 (by decide)⟩

theorem pingLoop_cons_err (a : Attempt) (rest : List Attempt) (st : LoopState)
    (m : String) (ha : a.outcome = AttemptResult.err m) :
    pingLoop (a :: rest) st =
      pingLoop rest
        { lastErr := some m, lastCode := st.lastCode, latencyMs := a.latencyMs } := by
  simp [pingLoop, ha]

theorem pingLoop_cons_resp_fail (a : Attempt) (rest : List Attempt)
    (st : LoopState) (code : Int) (ha : a.outcome = AttemptResult.resp code)
    (hc : ¬code < 400) :
    pingLoop (a :: rest) st =
      pingLoop rest
        { lastErr := none, lastCode := code, latencyMs := a.latencyMs } := by
  simp [pingLoop, ha, hc]

theorem pingLoop_cons_resp_ok (a : Attempt) (rest : List Attempt)
    (st : LoopState) (code : Int) (ha : a.outcome = AttemptResult.resp code)
    (hc : code < 400) :
    pingLoop (a :: rest) st =
      { lastErr := none, lastCode := code, latencyMs := a.latencyMs } := by
  simp [pingLoop, ha, hc]

theorem finalAttempt_cons_cons_err (a b : Attempt) (rest : List Attempt)
    (m : String) (ha : a.outcome = AttemptResult.err m) :
    finalAttempt (a :: b :: rest) = finalAttempt (b :: rest) := by
  simp [finalAttempt, ha]

theorem finalAttempt_cons_cons_resp_fail (a b : Attempt) (rest : List Attempt)
    (code : Int) (ha : a.outcome = AttemptResult.resp code) (hc : ¬code < 400) :
    finalAttempt (a :: b :: rest) = finalAttempt (b :: rest) := by
  simp [finalAttempt, ha, hc]

theorem pingLoop_final :
    ∀ (attempts : List Attempt) (st : LoopState), attempts ≠ [] →
    ∃ a, finalAttempt attempts = some a ∧
      (pingLoop attempts st).latencyMs = a.latencyMs ∧
      (match a.outcome with
       | AttemptResult.err m => (pingLoop attempts st).lastErr = some m
       | AttemptResult.resp code =>
         (pingLoop attempts st).lastErr = none ∧
         (pingLoop attempts st).lastCode = code) := by
  intro attempts
  induction attempts with
  | nil => intro st h; exact absurd rfl h
  | cons a rest ih =>
    intro st _
    cases rest with
    | nil =>
      refine ⟨a, rfl, ?_⟩
      cases ha : a.outcome with
      | err m => rw [pingLoop_cons_err a [] st m ha]; simp [pingLoop, ha]
      | resp code =>
        by_cases hc : code < 400
        · rw [pingLoop_cons_resp_ok a [] st code ha hc]; simp [ha]
        · rw [pingLoop_cons_resp_fail a [] st code ha hc]; simp [pingLoop, ha]
    | cons b rest2 =>
      cases ha : a.outcome with
      | err m =>
        obtain ⟨a', ha', hl, hrest⟩ :=
          ih { lastErr := some m, lastCode := st.lastCode,
               latencyMs := a.latencyMs } (by simp)
        rw [finalAttempt_cons_cons_err a b rest2 m ha,
          pingLoop_cons_err a (b :: rest2) st m ha]
        exact ⟨a', ha', hl, hrest⟩
      | resp code =>
        by_cases hc : code < 400
        · rw [pingLoop_cons_resp_ok a (b :: rest2) st code ha hc]
          exact ⟨a, by simp [finalAttempt, ha, hc], rfl, by simp [ha]⟩
        · obtain ⟨a', ha', hl, hrest⟩ :=
            ih { lastErr := none, lastCode := code,
                 latencyMs := a.latencyMs } (by simp)
          rw [finalAttempt_cons_cons_resp_fail a b rest2 code ha hc,
            pingLoop_cons_resp_fail a (b :: rest2) st code ha hc]
          exact ⟨a', ha', hl, hrest⟩

theorem classify_status_down_iff (cfg : Config) (nowMs : Int) (st : LoopState) :
    (classify cfg nowMs st).status = "DOWN" ↔
      (st.lastErr ≠ none ∨ 400 ≤ st.lastCode) := by
  unfold classify
  by_cases hcond : st.lastErr ≠ none ∨ 400 ≤ st.lastCode
  · rw [if_pos hcond]
    simp [hcond]
  · rw [if_neg hcond]
    by_cases hd : cfg.degradedMs ≤ st.latencyMs
    · rw [if_pos hd]
      simp [hcond]
    · rw [if_neg hd]
      simp [hcond]

theorem classify_status_degraded_iff (cfg : Config) (nowMs : Int)
    (st : LoopState) :
    (classify cfg nowMs st).status = "DEGRADED" ↔
      (¬(st.lastErr ≠ none ∨ 400 ≤ st.lastCode) ∧
        cfg.degradedMs ≤ st.latencyMs) := by
  unfold classify
  by_cases hcond : st.lastErr ≠ none ∨ 400 ≤ st.lastCode
  · rw [if_pos hcond]
    simp [hcond]
  · rw [if_neg hcond]
    by_cases hd : cfg.degradedMs ≤ st.latencyMs
    · rw [if_pos hd]
      simp [hcond, hd]
    · rw [if_neg hd]
      simp [hcond, hd]

theorem classify_status_healthy_iff (cfg : Config) (nowMs : Int)
    (st : LoopState) :
    (classify cfg nowMs st).status = "HEALTHY" ↔
      (¬(st.lastErr ≠ none ∨ 400 ≤ st.lastCode) ∧
        st.latencyMs < cfg.degradedMs) := by
  unfold classify
  by_cases hcond : st.lastErr ≠ none ∨ 400 ≤ st.lastCode
  · rw [if_pos hcond]
    simp [hcond]
  · rw [if_neg hcond]
    by_cases hd : cfg.degradedMs ≤ st.latencyMs
    · rw [if_pos hd]
      simp [hcond]
      omega
    · rw [if_neg hd]
      simp [hcond]
      omega

theorem classify_check_status (cfg : Config) (nowMs : Int) (st : LoopState) :
    (classify cfg nowMs st).check.status = (classify cfg nowMs st).status := by
  unfold classify
  split
  · rfl
  · split
    · rfl
    · rfl

theorem classify_down_latency (cfg : Config) (nowMs : Int) (st : LoopState)
    (h : (classify cfg nowMs st).status = "DOWN") :
    (classify cfg nowMs st).projLatency = 0 ∧
      (classify cfg nowMs st).check.latencyMs = 0 := by
  rw [classify_status_down_iff] at h
  unfold classify
  rw [if_pos h]
  exact ⟨rfl, rfl⟩

/-- C3: the recorded status is DOWN exactly when the attempt at which the
retry loop stops (the first success, or the last attempt when none succeeds)
is a transport error or carries an HTTP code ≥ 400; whenever the status is
DOWN, the latency recorded on the project and in the check is 0 regardless of
the measured transport time. -/
theorem ping_down_iff (cfg : Config) (nowMs : Int) (attempts : List Attempt)
    (h : attempts ≠ []) :
    ((pingService cfg nowMs attempts).status = "DOWN" ↔
      (∃ a, finalAttempt attempts = some a ∧ attemptFailed a))
    ∧ (pingService cfg nowMs attempts).check.status =
        (pingService cfg nowMs attempts).status
    ∧ ((pingService cfg nowMs attempts).status = "DOWN" →
        (pingService cfg nowMs attempts).projLatency = 0 ∧
        (pingService cfg nowMs attempts).check.latencyMs = 0) := by
  obtain ⟨a, ha, hl, hrest⟩ :=
    pingLoop_final attempts { lastErr := none, lastCode := 0, latencyMs := 0 } h
  refine ⟨?_, classify_check_status cfg nowMs _, classify_down_latency cfg nowMs _⟩
  unfold pingService
  rw [classify_status_down_iff, ha]
  cases hao : a.outcome with
  | err m =>
    rw [hao] at hrest
    simp only at hrest
    simp [hrest, attemptFailed, hao]
  | resp code =>
    rw [hao] at hrest
    simp only at hrest
    obtain ⟨he, hc⟩ := hrest
    simp [he, hc, attemptFailed, hao]

/-- Witness for `ping_down_iff` on a concrete single 503 attempt. -/
theorem ping_down_iff_witness :
    ([({ outcome := AttemptResult.resp 503, latencyMs := 7 } : Attempt)] ≠ [])
    ∧ (((pingService { pingRetries := 1, degradedMs := 1200 } 0
          [{ outcome := AttemptResult.resp 503, latencyMs := 7 }]).status = "DOWN" ↔
        (∃ a, finalAttempt
            [({ outcome := AttemptResult.resp 503, latencyMs := 7 } : Attempt)] =
            some a ∧ attemptFailed a))
      ∧ (pingService { pingRetries := 1, degradedMs := 1200 } 0
          [{ outcome := AttemptResult.resp 503, latencyMs := 7 }]).check.status =
          (pingService { pingRetries := 1, degradedMs := 1200 } 0
            [{ outcome := AttemptResult.resp 503, latencyMs := 7 }]).status
      ∧ ((pingService { pingRetries := 1, degradedMs := 1200 } 0
            [{ outcome := AttemptResult.resp 503, latencyMs := 7 }]).status = "DOWN" →
          (pingService { pingRetries := 1, degradedMs := 1200 } 0
            [{ outcome := AttemptResult.resp 503, latencyMs := 7 }]).projLatency = 0 ∧
          (pingService { pingRetries := 1, degradedMs := 1200 } 0
            [{ outcome := AttemptResult.resp 503, latencyMs := 7 }]).check.latencyMs = 0)) :=
  ⟨by decide,
    ping_down_iff { pingRetries := 1, degradedMs := 1200 } 0
      [{ outcome := AttemptResult.resp 503, latencyMs := 7 }] (by decide)⟩

/-- C4: the status is DEGRADED exactly when the attempt at which the loop
stops received a response with code < 400 and its measured latency reached
the configured threshold; with code < 400 and latency below the threshold the
status is HEALTHY. -/
theorem ping_degraded_iff (cfg : Config) (nowMs : Int)
    (attempts : List Attempt) (h : attempts ≠ []) :
    ((pingService cfg nowMs attempts).status = "DEGRADED" ↔
      (∃ a code, finalAttempt attempts = some a ∧
        a.outcome = AttemptResult.resp code ∧ code < 400 ∧
        cfg.degradedMs ≤ a.latencyMs))
    ∧ ((pingService cfg nowMs attempts).status = "HEALTHY" ↔
      (∃ a code, finalAttempt attempts = some a ∧
        a.outcome = AttemptResult.resp code ∧ code < 400 ∧
        a.latencyMs < cfg.degradedMs)) := by
  obtain ⟨a, ha, hl, hrest⟩ :=
    pingLoop_final attempts { lastErr := none, lastCode := 0, latencyMs := 0 } h
  unfold pingService
  rw [classify_status_degraded_iff, classify_status_healthy_iff, ha, hl]
  cases hao : a.outcome with
  | err m =>
    rw [hao] at hrest
    simp only at hrest
    constructor
    · constructor
      · rintro ⟨hcond, -⟩
        exact absurd (Or.inl (by simp [hrest])) hcond
      · rintro ⟨a', code', ha', hout, -, -⟩
        injection ha' with haa
        subst haa
        rw [hao] at hout
        cases hout
    · constructor
      · rintro ⟨hcond, -⟩
        exact absurd (Or.inl (by simp [hrest])) hcond
      · rintro ⟨a', code', ha', hout, -, -⟩
        injection ha' with haa
        subst haa
        rw [hao] at hout
        cases hout
  | resp code =>
    rw [hao] at hrest
    simp only at hrest
    obtain ⟨he, hc⟩ := hrest
    rw [he, hc]
    constructor
    · constructor
      · rintro ⟨hcond, hlat⟩
        have hcode : code < 400 := by
          by_contra hge
          exact hcond (Or.inr (by omega))
        exact ⟨a, code, rfl, hao, hcode, hlat⟩
      · rintro ⟨a', code', ha', hout, hlt, hlat⟩
        injection ha' with haa
        subst haa
        rw [hao] at hout
        injection hout with hcc
        subst hcc
        exact ⟨by simp; omega, hlat⟩
    · constructor
      · rintro ⟨hcond, hlat⟩
        have hcode : code < 400 := by
          by_contra hge
          exact hcond (Or.inr (by omega))
        exact ⟨a, code, rfl, hao, hcode, hlat⟩
      · rintro ⟨a', code', ha', hout, hlt, hlat⟩
        injection ha' with haa
        subst haa
        rw [hao] at hout
        injection hout with hcc
        subst hcc
        exact ⟨by simp; omega, hlat⟩

/-- Witness for `ping_degraded_iff` on a concrete slow 200 response. -/
theorem ping_degraded_iff_witness :
    ([({ outcome := AttemptResult.resp 200, latencyMs := 1500 } : Attempt)] ≠ [])
    ∧ (((pingService { pingRetries := 1, degradedMs := 1200 } 0
          [{ outcome := AttemptResult.resp 200, latencyMs := 1500 }]).status =
            "DEGRADED" ↔
        (∃ a code, finalAttempt
            [({ outcome := AttemptResult.resp 200, latencyMs := 1500 } : Attempt)] =
            some a ∧
          a.outcome = AttemptResult.resp code ∧ code < 400 ∧
          (1200 : Int) ≤ a.latencyMs))
      ∧ ((pingService { pingRetries := 1, degradedMs := 1200 } 0
          [{ outcome := AttemptResult.resp 200, latencyMs := 1500 }]).status =
            "HEALTHY" ↔
        (∃ a code, finalAttempt
            [({ outcome := AttemptResult.resp 200, latencyMs := 1500 } : Attempt)] =
            some a ∧
          a.outcome = AttemptResult.resp code ∧ code < 400 ∧
          a.latencyMs < (1200 : Int)))) :=
  ⟨by decide,
    ping_degraded_iff { pingRetries := 1, degradedMs := 1200 } 0
      [{ outcome := AttemptResult.resp 200, latencyMs := 1500 }] (by decide)⟩

theorem finalAttempt_all_fail :
    ∀ (attempts : List Attempt), (∀ a ∈ attempts, attemptFailed a) →
    finalAttempt attempts = attempts.getLast? := by
  intro attempts
  induction attempts with
  | nil => intro _; rfl
  | cons a rest ih =>
    intro hf
    cases rest with
    | nil => rfl
    | cons b rest2 =>
      have hfa : attemptFailed a := hf a (by simp)
      have hrec := ih (fun x hx => hf x (by simp [hx]))
      cases hao : a.outcome with
      | err m =>
        rw [finalAttempt_cons_cons_err a b rest2 m hao, hrec]
        rw [List.getLast?_cons_cons]
      | resp code =>
        unfold attemptFailed at hfa
        rw [hao] at hfa
        simp only at hfa
        rw [finalAttempt_cons_cons_resp_fail a b rest2 code hao (by omega), hrec]
        rw [List.getLast?_cons_cons]

theorem pingLoop_all_fail_code :
    ∀ (attempts : List Attempt) (st : LoopState),
    (∀ a ∈ attempts, attemptFailed a) →
    (pingLoop attempts st).lastCode =
      attempts.foldl
        (fun acc a =>
          match a.outcome with
          | AttemptResult.resp code => code
          | AttemptResult.err _ => acc) st.lastCode := by
  intro attempts
  induction attempts with
  | nil => intro st _; rfl
  | cons a rest ih =>
    intro st hf
    have hfa : attemptFailed a := hf a (by simp)
    have hrec := fun st' => ih st' (fun x hx => hf x (by simp [hx]))
    cases hao : a.outcome with
    | err m =>
      rw [pingLoop_cons_err a rest st m hao, hrec]
      simp [hao]
    | resp code =>
      unfold attemptFailed at hfa
      rw [hao] at hfa
      simp only at hfa
      rw [pingLoop_cons_resp_fail a rest st code hao (by omega), hrec]
      simp [hao]

/-- C5 (amended): when every attempt fails, the probe is DOWN with latency 0;
the recorded HTTP code is that of the last attempt that received a response
(0 when every attempt was a transport error), and the recorded error text is
the message of the last attempt when it was a transport error and empty
otherwise — in particular it is empty when the final attempt received an
HTTP response such as a 503. -/
theorem ping_all_fail (cfg : Config) (nowMs : Int) (attempts : List Attempt)
    (h : attempts ≠ []) (hf : ∀ a ∈ attempts, attemptFailed a) :
    (pingService cfg nowMs attempts).status = "DOWN"
    ∧ (pingService cfg nowMs attempts).projLatency = 0
    ∧ (pingService cfg nowMs attempts).check.latencyMs = 0
    ∧ (pingService cfg nowMs attempts).check.code = lastRespCode attempts
    ∧ (pingService cfg nowMs attempts).check.error = errorOfLast attempts
    ∧ finalAttempt attempts = attempts.getLast? := by
  have hfin := finalAttempt_all_fail attempts hf
  obtain ⟨a, ha, hl, hrest⟩ :=
    pingLoop_final attempts { lastErr := none, lastCode := 0, latencyMs := 0 } h
  have hmem : a ∈ attempts := by
    have hx := ha
    rw [hfin] at hx
    exact List.mem_of_getLast?_eq_some hx
  have hfa : attemptFailed a := hf a hmem
  have hcode := pingLoop_all_fail_code attempts
    { lastErr := none, lastCode := 0, latencyMs := 0 } hf
  have hcond : (pingLoop attempts
      { lastErr := none, lastCode := 0, latencyMs := 0 }).lastErr ≠ none ∨
      400 ≤ (pingLoop attempts
        { lastErr := none, lastCode := 0, latencyMs := 0 }).lastCode := by
    cases hao : a.outcome with
    | err m =>
      rw [hao] at hrest
      simp only at hrest
      exact Or.inl (by simp [hrest])
    | resp code =>
      rw [hao] at hrest
      simp only at hrest
      unfold attemptFailed at hfa
      rw [hao] at hfa
      simp only at hfa
      exact Or.inr (by rw [hrest.2]; omega)
  unfold pingService classify
  rw [if_pos hcond]
  refine ⟨rfl, rfl, rfl, hcode, ?_, hfin⟩
  unfold errorOfLast
  rw [← hfin, ha]
  cases hao : a.outcome with
  | err m =>
    rw [hao] at hrest
    simp only at hrest
    rw [hrest]
    simp [hao]
  | resp code =>
    rw [hao] at hrest
    simp only at hrest
    rw [hrest.1]
    simp [hao]

/-- Witness for `ping_all_fail`: a transport error followed by a 503. -/
theorem ping_all_fail_witness :
    ([({ outcome := AttemptResult.err "boom", latencyMs := 20 } : Attempt),
      att503] ≠ [] ∧
      (∀ a ∈ [({ outcome := AttemptResult.err "boom", latencyMs := 20 } : Attempt),
        att503], attemptFailed a))
    ∧ ((pingService cfg3 0
          [{ outcome := AttemptResult.err "boom", latencyMs := 20 }, att503]).status =
        "DOWN"
      ∧ (pingService cfg3 0
          [{ outcome := AttemptResult.err "boom", latencyMs := 20 }, att503]).projLatency = 0
      ∧ (pingService cfg3 0
          [{ outcome := AttemptResult.err "boom", latencyMs := 20 }, att503]).check.latencyMs = 0
      ∧ (pingService cfg3 0
          [{ outcome := AttemptResult.err "boom", latencyMs := 20 }, att503]).check.code =
        lastRespCode [{ outcome := AttemptResult.err "boom", latencyMs := 20 }, att503]
      ∧ (pingService cfg3 0
          [{ outcome := AttemptResult.err "boom", latencyMs := 20 }, att503]).check.error =
        errorOfLast [{ outcome := AttemptResult.err "boom", latencyMs := 20 }, att503]
      ∧ finalAttempt [({ outcome := AttemptResult.err "boom", latencyMs := 20 } : Attempt), att503] =
        [({ outcome := AttemptResult.err "boom", latencyMs := 20 } : Attempt), att503].getLast?) :=
  ⟨⟨by decide, by decide⟩,
    ping_all_fail cfg3 0
      [{ outcome := AttemptResult.err "boom", latencyMs := 20 }, att503]
      (by decide) (by decide)⟩

/-- Counterexample to C5 as stated: with 503 responses on all 3 attempts the
probe is DOWN with latency 0 and code 503, but the recorded error text is
empty — it is NOT populated from the last attempt, because no transport
error occurred (`check.Error` is only set when `lastErr != nil`). -/
theorem ping_503_error_empty :
    (pingService cfg3 0 [att503, att503, att503]).status = "DOWN"
    ∧ (pingService cfg3 0 [att503, att503, att503]).check.latencyMs = 0
    ∧ (pingService cfg3 0 [att503, att503, att503]).check.code = 503
    ∧ (pingService cfg3 0 [att503, att503, att503]).check.error = "" := by
  decide

theorem getLast?_rtake_append {α : Type} (l : List α) (c : α) (n : Nat)
    (hn : 0 < n) :
    (List.rtake (l ++ [c]) n).getLast? = some c := by
  unfold List.rtake
  rw [List.drop_append_of_le_length (by simp; omega)]
  exact List.getLast?_concat _

theorem storeInv_addCheck (s : Store) (nowMs : Int) (p : Project)
    (c : CheckResult) (hinv : StoreInv s) :
    StoreInv (s.addCheck nowMs p c).1 := by
  intro id
  rw [addCheck_lastStatusByID, addCheck_historyByID]
  by_cases hid : id = p.id
  · subst hid
    rw [lookupMap_insertMap_self, lookupMap_insertMap_self]
    simp only [Option.getD_some]
    rw [getLast?_rtake_append _ _ _ (by omega)]
    rfl
  · rw [lookupMap_insertMap_ne _ _ _ _ (fun hh => hid hh.symm),
      lookupMap_insertMap_ne _ _ _ _ (fun hh => hid hh.symm)]
    exact hinv id

/-- C10: the last-status table always holds exactly the status of the most
recent history entry of each target (and has an entry exactly for targets
with non-empty history); the invariant holds for a fresh store and is
preserved by `addCheck` and by every other state-changing store operation,
and after an `addCheck` the target's entry equals the status of the check
just appended. -/
theorem lastStatus_matches_history (s : Store) (nowMs nowMs2 nowMs3 : Int)
    (p : Project) (c : CheckResult) (email key : String) (windowMs limit : Int)
    (disk : Option (List (String × Int))) :
    StoreInv NewStore
    ∧ (StoreInv s → StoreInv (s.addCheck nowMs p c).1)
    ∧ (StoreInv s → StoreInv (s.markConfirmed nowMs2 email))
    ∧ (StoreInv s → StoreInv (s.loadConfirmedFromDisk disk))
    ∧ (StoreInv s → StoreInv (s.allowAction nowMs3 key windowMs limit).1)
    ∧ (lookupMap (s.addCheck nowMs p c).1.lastStatusByID p.id = some c.status
      ∧ ((lookupMap (s.addCheck nowMs p c).1.historyByID p.id).getD
          []).getLast? = some c) := by
  refine ⟨?_, storeInv_addCheck s nowMs p c, ?_, ?_, ?_, ?_, ?_⟩
  · intro id
    rfl
  · intro hinv id
    exact hinv id
  · intro hinv id
    cases disk with
    | none => exact hinv id
    | some m => exact hinv id
  · intro hinv id
    simp only [Store.allowAction]
    split
    · exact hinv id
    · exact hinv id
  · rw [addCheck_lastStatusByID, lookupMap_insertMap_self]
  · rw [addCheck_historyByID, lookupMap_insertMap_self]
    simp only [Option.getD_some]
    exact getLast?_rtake_append _ _ _ (by omega)

/-- Witness for `lastStatus_matches_history` on concrete inputs. -/
theorem lastStatus_matches_history_witness :
    StoreInv NewStore ∧ StoreInv (NewStore.addCheck 0 pAlpha chHealthy).1 := by
  have hmain := lastStatus_matches_history NewStore 0 0 0 pAlpha chHealthy
    "a@b.c" "k" 1000 5 none
  exact ⟨hmain.1, hmain.2.1 hmain.1⟩

theorem digitChar_ne_underscore : ∀ m : Nat, Nat.digitChar m ≠ '_'
  | 0 => by decide
  | 1 => by decide
  | 2 => by decide
  | 3 => by decide
  | 4 => by decide
  | 5 => by decide
  | 6 => by decide
  | 7 => by decide
  | 8 => by decide
  | 9 => by decide
  | 10 => by decide
  | 11 => by decide
  | 12 => by decide
  | 13 => by decide
  | 14 => by decide
  | 15 => by decide
  | (n + 16) => by
    have hne : ∀ j : Nat, j < 16 → ¬(n + 16 = j) := by omega
    unfold Nat.digitChar
    rw [if_neg (hne 0 (by norm_num)), if_neg (hne 1 (by norm_num)),
      if_neg (hne 2 (by norm_num)), if_neg (hne 3 (by norm_num)),
      if_neg (hne 4 (by norm_num)), if_neg (hne 5 (by norm_num)),
      if_neg (hne 6 (by norm_num)), if_neg (hne 7 (by norm_num)),
      if_neg (hne 8 (by norm_num)), if_neg (hne 9 (by norm_num)),
      if_neg (hne 10 (by norm_num)), if_neg (hne 11 (by norm_num)),
      if_neg (hne 12 (by norm_num)), if_neg (hne 13 (by norm_num)),
      if_neg (hne 14 (by norm_num)), if_neg (hne 15 (by norm_num))]
    decide

theorem toDigitsCore_ne_underscore :
    ∀ (fuel n : Nat) (ds : List Char), (∀ ch ∈ ds, ch ≠ '_') →
    ∀ ch ∈ Nat.toDigitsCore 10 fuel n ds, ch ≠ '_' := by
  intro fuel
  induction fuel with
  | zero =>
    intro n ds hds ch hch
    exact hds ch hch
  | succ f ih =>
    intro n ds hds ch hch
    unfold Nat.toDigitsCore at hch
    by_cases hnb : n / 10 = 0
    · rw [if_pos hnb] at hch
      rcases List.mem_cons.mp hch with h | h
      · rw [h]; exact digitChar_ne_underscore _
      · exact hds ch h
    · rw [if_neg hnb] at hch
      refine ih (n / 10) (Nat.digitChar (n % 10) :: ds) ?_ ch hch
      intro c hc
      rcases List.mem_cons.mp hc with h | h
      · rw [h]; exact digitChar_ne_underscore _
      · exact hds c h

theorem natRepr_ne_underscore (n : Nat) :
    ∀ ch ∈ (Nat.repr n).data, ch ≠ '_' := by
  intro ch hch
  exact toDigitsCore_ne_underscore (n + 1) n [] (by intro c hc; cases hc) ch hch

theorem intToString_ne_underscore (i : Int) :
    ∀ ch ∈ (toString i).data, ch ≠ '_' := by
  cases i with
  | ofNat m => exact natRepr_ne_underscore m
  | negSucc m =>
    intro ch hch
    have hd : (toString (Int.negSucc m)).data = '-' :: (Nat.repr (m + 1)).data := rfl
    rw [hd] at hch
    rcases List.mem_cons.mp hch with h | h
    · rw [h]; decide
    · exact natRepr_ne_underscore (m + 1) ch h

theorem string_data_inj {a b : String} (h : a.data = b.data) : a = b := by
  cases a
  cases b
  exact congrArg String.mk h

theorem data_append (a b : String) : (a ++ b).data = a.data ++ b.data := by
  cases a
  cases b
  rfl

theorem append_underscore_inj :
    ∀ (A B tail1 tail2 : List Char), ('_' ∉ A) → ('_' ∉ B) →
    A ++ '_' :: tail1 = B ++ '_' :: tail2 → A = B ∧ tail1 = tail2 := by
  intro A
  induction A with
  | nil =>
    intro B t1 t2 _ hB heq
    cases B with
    | nil =>
      simp only [List.nil_append] at heq
      injection heq with _ h2
      exact ⟨rfl, h2⟩
    | cons b bs =>
      simp only [List.nil_append, List.cons_append] at heq
      injection heq with h1 _
      exact absurd (h1 ▸ List.mem_cons_self b bs) hB
  | cons a as ih =>
    intro B t1 t2 hA hB heq
    cases B with
    | nil =>
      simp only [List.cons_append, List.nil_append] at heq
      injection heq with h1 _
      exact absurd (h1 ▸ List.mem_cons_self a as) hA
    | cons b bs =>
      simp only [List.cons_append] at heq
      injection heq with h1 h2
      subst h1
      have hres := ih bs t1 t2 (fun hm => hA (List.mem_cons_of_mem _ hm))
        (fun hm => hB (List.mem_cons_of_mem _ hm)) h2
      exact ⟨by rw [hres.1], hres.2⟩

theorem addCheck_incident_fields (s : Store) (nowMs : Int) (p : Project)
    (c : CheckResult) (i : Incident)
    (hi : (s.addCheck nowMs p c).2 = some i) :
    i = mkIncident nowMs p c.status := by
  rw [addCheck_snd] at hi
  cases hprev : lookupMap s.lastStatusByID p.id with
  | none =>
    rw [hprev] at hi
    cases hi
  | some prev =>
    rw [hprev] at hi
    simp only at hi
    split at hi
    · injection hi with hii
      exact hii.symm
    · cases hi

/-- C6 (amended): every incident created by `addCheck` carries the id
`incidentId` of its millisecond timestamp, target id and new status, and two
such ids coincide only when the rendered timestamp, the target id and the
status all coincide — so ids are distinct across different targets or
different statuses; however, two transitions of the SAME target to the SAME
status within the SAME millisecond produce the SAME id (see the
counterexample), so uniqueness per transition does not hold in that case. -/
theorem incident_id_characterisation (s : Store) (nowMs : Int) (p : Project)
    (c : CheckResult) (i : Incident) (ts1 ts2 : Int) (p1 p2 s1 s2 : String)
    (hi : (s.addCheck nowMs p c).2 = some i)
    (hs1 : s1 ∈ coreStatuses) (hs2 : s2 ∈ coreStatuses)
    (heq : incidentId ts1 p1 s1 = incidentId ts2 p2 s2) :
    (i.id = incidentId nowMs p.id c.status ∧ i.ts = nowMs ∧
      i.projectId = p.id ∧ i.status = c.status)
    ∧ (toString ts1 = toString ts2 ∧ p1 = p2 ∧ s1 = s2) := by
  constructor
  · rw [addCheck_incident_fields s nowMs p c i hi]
    exact ⟨rfl, rfl, rfl, rfl⟩
  · have hdata : (toString ts1).data ++ '_' :: (p1.data ++ '_' :: s1.data) =
        (toString ts2).data ++ '_' :: (p2.data ++ '_' :: s2.data) := by
      have h0 := congrArg String.data heq
      unfold incidentId at h0
      simp only [data_append] at h0
      simpa [List.append_assoc] using h0
    have hstep1 := append_underscore_inj _ _ _ _
      (fun hm => intToString_ne_underscore ts1 '_' hm rfl)
      (fun hm => intToString_ne_underscore ts2 '_' hm rfl) hdata
    have hts : toString ts1 = toString ts2 := string_data_inj hstep1.1
    have hrev : s1.data.reverse ++ '_' :: p1.data.reverse =
        s2.data.reverse ++ '_' :: p2.data.reverse := by
      have h1 := congrArg List.reverse hstep1.2
      simpa [List.reverse_append] using h1
    have hs1u : '_' ∉ s1.data.reverse := by
      simp only [coreStatuses, List.mem_cons] at hs1
      rcases hs1 with h | h | h | h
      · rw [h]; decide
      · rw [h]; decide
      · rw [h]; decide
      · exact absurd h (List.not_mem_nil s1)
    have hs2u : '_' ∉ s2.data.reverse := by
      simp only [coreStatuses, List.mem_cons] at hs2
      rcases hs2 with h | h | h | h
      · rw [h]; decide
      · rw [h]; decide
      · rw [h]; decide
      · exact absurd h (List.not_mem_nil s2)
    have hstep2 := append_underscore_inj _ _ _ _ hs1u hs2u hrev
    have hp : p1 = p2 := string_data_inj (List.reverse_injective hstep2.2)
    have hs : s1 = s2 := string_data_inj (List.reverse_injective hstep2.1)
    exact ⟨hts, hp, hs⟩

/-- Witness for `incident_id_characterisation` on concrete inputs. -/
theorem incident_id_characterisation_witness :
    ((sColl1.addCheck 1000 pAlpha chDown).2 = some (mkIncident 1000 pAlpha "DOWN")
      ∧ "DOWN" ∈ coreStatuses
      ∧ incidentId 5 "a" "DOWN" = incidentId 5 "a" "DOWN")
    ∧ (((mkIncident 1000 pAlpha "DOWN").id = incidentId 1000 pAlpha.id chDown.status
        ∧ (mkIncident 1000 pAlpha "DOWN").ts = 1000
        ∧ (mkIncident 1000 pAlpha "DOWN").projectId = pAlpha.id
        ∧ (mkIncident 1000 pAlpha "DOWN").status = chDown.status)
      ∧ (toString (5 : Int) = toString (5 : Int) ∧ "a" = "a"
        ∧ "DOWN" = "DOWN")) :=
  ⟨⟨by decide, by decide, rfl⟩,
    incident_id_characterisation sColl1 1000 pAlpha chDown
      (mkIncident 1000 pAlpha "DOWN") 5 5 "a" "a" "DOWN" "DOWN"
      (by decide) (by decide) (by decide) rfl⟩

/-- Counterexample to C6 as stated: two distinct incidents created by
`addCheck` — both for target `svc`, both transitions to DOWN, both in
millisecond 1000, but with different display names — carry the SAME id
`1000_svc_DOWN`, so the id is not unique per transition for the same target
at the same millisecond. -/
theorem incident_id_collision :
    iColl1.isSome
    ∧ iColl2.isSome
    ∧ (iColl1.map (fun i => i.id)) = (iColl2.map (fun i => i.id))
    ∧ iColl1 ≠ iColl2 := by
  decide

theorem allowAction_spec (s : Store) (nowMs : Int) (key : String)
    (w m : Int) :
    ((s.allowAction nowMs key w m).2 = true ↔
      (((((lookupMap s.rateBuckets key).getD []).filter
          (fun ts => decide (nowMs - w ≤ ts))).length : Int) < m))
    ∧ ((s.allowAction nowMs key w m).2 = false →
        lookupMap (s.allowAction nowMs key w m).1.rateBuckets key =
          some (((lookupMap s.rateBuckets key).getD []).filter
            (fun ts => decide (nowMs - w ≤ ts))))
    ∧ ((s.allowAction nowMs key w m).2 = true →
        lookupMap (s.allowAction nowMs key w m).1.rateBuckets key =
          some ((((lookupMap s.rateBuckets key).getD []).filter
            (fun ts => decide (nowMs - w ≤ ts))) ++ [nowMs])) := by
  simp only [Store.allowAction]
  by_cases hc : m ≤ ((((lookupMap s.rateBuckets key).getD []).filter
      (fun ts => decide (nowMs - w ≤ ts))).length : Int)
  · rw [if_pos hc]
    refine ⟨iff_of_false (by simp) (by omega), ?_, by simp⟩
    intro _
    exact lookupMap_insertMap_self _ _ _
  · rw [if_neg hc]
    refine ⟨iff_of_true rfl (by omega), by simp, ?_⟩
    intro _
    exact lookupMap_insertMap_self _ _ _

theorem allowedTimes_cons (t : Int) (ts : List Int) (b : Bool)
    (oks : List Bool) :
    allowedTimes (t :: ts) (b :: oks) =
      (if b then t :: allowedTimes ts oks else allowedTimes ts oks) := by
  unfold allowedTimes
  cases b with
  | true => simp [List.zip_cons_cons]
  | false => simp [List.zip_cons_cons]

theorem runAllow_cons (s : Store) (key : String) (w m t : Int)
    (ts : List Int) :
    runAllow s key w m (t :: ts) =
      ((runAllow (s.allowAction t key w m).1 key w m ts).1,
        (s.allowAction t key w m).2 ::
          (runAllow (s.allowAction t key w m).1 key w m ts).2) := rfl

theorem runAllow_exact :
    ∀ (calls : List Int) (s : Store) (key : String) (w m T : Int)
      (A : List Int),
    ((lookupMap s.rateBuckets key).getD []) = A →
    (∀ a ∈ A, T - w ≤ a) →
    (∀ t ∈ calls, T - w ≤ t ∧ t ≤ T) →
    0 ≤ m →
    ((runAllow s key w m calls).2.count true) =
      min calls.length (m.toNat - A.length) := by
  intro calls
  induction calls with
  | nil =>
    intro s key w m T A _ _ _ _
    simp [runAllow]
  | cons t ts ih =>
    intro s key w m T A hA hAw hcalls hm
    have htT : T - w ≤ t ∧ t ≤ T := hcalls t (by simp)
    have hfilter : (((lookupMap s.rateBuckets key).getD []).filter
        (fun ts => decide (t - w ≤ ts))) = A := by
      rw [hA]
      apply List.filter_eq_self.mpr
      intro a ha
      simp only [decide_eq_true_eq]
      have := hAw a ha
      omega
    rw [runAllow_cons]
    simp only [List.count_cons]
    by_cases hc : m ≤ (A.length : Int)
    · have hfalse : (s.allowAction t key w m).2 = false := by
        simp only [Store.allowAction, hfilter]
        rw [if_pos hc]
      have hbucket : ((lookupMap
          (s.allowAction t key w m).1.rateBuckets key).getD []) = A := by
        simp only [Store.allowAction, hfilter]
        rw [if_pos hc]
        simp [lookupMap_insertMap_self]
      rw [hfalse]
      rw [ih _ key w m T A hbucket hAw
        (fun x hx => hcalls x (by simp [hx])) hm]
      simp
      omega
    · have htrue : (s.allowAction t key w m).2 = true := by
        simp only [Store.allowAction, hfilter]
        rw [if_neg hc]
      have hbucket : ((lookupMap
          (s.allowAction t key w m).1.rateBuckets key).getD []) = A ++ [t] := by
        simp only [Store.allowAction, hfilter]
        rw [if_neg hc]
        simp [lookupMap_insertMap_self]
      rw [htrue]
      rw [ih _ key w m T (A ++ [t]) hbucket ?_
        (fun x hx => hcalls x (by simp [hx])) hm]
      · simp
        omega
      · intro a ha
        rcases List.mem_append.mp ha with h | h
        · exact hAw a h
        · rw [List.mem_singleton.mp h]
          omega

theorem allowedTimes_cons_true (t : Int) (ts : List Int) (oks : List Bool) :
    allowedTimes (t :: ts) (true :: oks) = t :: allowedTimes ts oks := by
  rw [allowedTimes_cons]
  rfl

theorem allowedTimes_cons_false (t : Int) (ts : List Int) (oks : List Bool) :
    allowedTimes (t :: ts) (false :: oks) = allowedTimes ts oks := by
  rw [allowedTimes_cons]
  rfl

theorem filter_cutoff_comp (A : List Int) (c d : Int) (hcd : c ≤ d) :
    (A.filter (fun ts => decide (c ≤ ts))).filter (fun ts => decide (d ≤ ts)) =
      A.filter (fun ts => decide (d ≤ ts)) := by
  rw [List.filter_filter]
  apply List.filter_congr
  intro a _
  by_cases h : d ≤ a
  · have hc2 : c ≤ a := by omega
    simp [h, hc2]
  · simp [h]

theorem runAllow_window_bound :
    ∀ (calls : List Int) (s : Store) (key : String) (w m c : Int)
      (A : List Int),
    ((lookupMap s.rateBuckets key).getD []) =
      A.filter (fun ts => decide (c ≤ ts)) →
    calls.Pairwise (fun a b => a ≤ b) →
    (∀ t ∈ calls, c ≤ t - w) →
    0 ≤ w →
    (∀ T, (A.countP (inWindow w T)) ≤ m.toNat) →
    ∀ T, ((A ++ allowedTimes calls
        (runAllow s key w m calls).2).countP (inWindow w T)) ≤ m.toNat := by
  intro calls
  induction calls with
  | nil =>
    intro s key w m c A hA hp hc hw hbound T
    simpa [runAllow, allowedTimes] using hbound T
  | cons t ts ih =>
    intro s key w m c A hA hp hc hw hbound T
    have hct : c ≤ t - w := hc t (by simp)
    obtain ⟨hpt, hpts⟩ := List.pairwise_cons.mp hp
    have hfilter : (((lookupMap s.rateBuckets key).getD []).filter
        (fun ts => decide (t - w ≤ ts))) =
        A.filter (fun ts => decide (t - w ≤ ts)) := by
      rw [hA]
      exact filter_cutoff_comp A c (t - w) hct
    have hcts : ∀ x ∈ ts, t - w ≤ x - w := by
      intro x hx
      have := hpt x hx
      omega
    rw [runAllow_cons]
    by_cases hm2 : m ≤ ((A.filter (fun ts => decide (t - w ≤ ts))).length : Int)
    · have hfalse : (s.allowAction t key w m).2 = false := by
        simp only [Store.allowAction, hfilter]
        rw [if_pos hm2]
      have hbucket : ((lookupMap
          (s.allowAction t key w m).1.rateBuckets key).getD []) =
          A.filter (fun ts => decide (t - w ≤ ts)) := by
        simp only [Store.allowAction, hfilter]
        rw [if_pos hm2]
        simp [lookupMap_insertMap_self]
      rw [hfalse, allowedTimes_cons_false]
      exact ih _ key w m (t - w) A hbucket hpts hcts hw hbound T
    · have htrue : (s.allowAction t key w m).2 = true := by
        simp only [Store.allowAction, hfilter]
        rw [if_neg hm2]
      have hbucket : ((lookupMap
          (s.allowAction t key w m).1.rateBuckets key).getD []) =
          (A ++ [t]).filter (fun ts => decide (t - w ≤ ts)) := by
        simp only [Store.allowAction, hfilter]
        rw [if_neg hm2]
        simp only [lookupMap_insertMap_self, Option.getD_some]
        rw [List.filter_append]
        have h1 : [t].filter (fun ts => decide (t - w ≤ ts)) = [t] := by
          simp
          omega
        rw [h1]
      have hboundA : ∀ T2, ((A ++ [t]).countP (inWindow w T2)) ≤ m.toNat := by
        intro T2
        rw [List.countP_append]
        by_cases hin : inWindow w T2 t = true
        · have hin2 := of_decide_eq_true hin
          have h1 : A.countP (inWindow w T2) ≤
              (A.filter (fun ts => decide (t - w ≤ ts))).length := by
            rw [← List.countP_eq_length_filter]
            apply List.countP_mono_left
            intro a _ hain
            have hain2 := of_decide_eq_true hain
            simp only [decide_eq_true_eq]
            omega
          have h2 : A.countP (inWindow w T2) + 1 ≤ m.toNat := by omega
          simpa [List.countP_cons, hin] using h2
        · have h0 : ([t].countP (inWindow w T2)) = 0 := by
            simp [List.countP_cons, hin]
          rw [h0]
          simpa using hbound T2
      rw [htrue, allowedTimes_cons_true]
      have hassoc : A ++ t :: allowedTimes ts
          (runAllow (s.allowAction t key w m).1 key w m ts).2 =
          (A ++ [t]) ++ allowedTimes ts
            (runAllow (s.allowAction t key w m).1 key w m ts).2 := by
        simp
      rw [hassoc]
      exact ih _ key w m (t - w) (A ++ [t]) hbucket hpts hcts hw hboundA T

/-- C8: `allowAction` admits a call exactly when fewer than `max` retained
timestamps lie in the window `[now - window, now]`; a refused call stores the
pruned timestamp list without recording the new call; starting from a fresh
key, a batch of calls all lying in one window of length `window` is admitted
exactly `min (number of calls) max` times (the first `max`, then refusals);
and for monotone call times, any sliding window `[T - window, T]` contains at
most `max` admitted calls. -/
theorem allow_sliding_window (s s2 : Store) (nowMs : Int) (key : String)
    (w m : Int) (calls : List Int) (T : Int)
    (hfresh : lookupMap s.rateBuckets key = none) (hw : 0 ≤ w) (hm : 0 ≤ m) :
    ((s2.allowAction nowMs key w m).2 = true ↔
      ((((lookupMap s2.rateBuckets key).getD []).filter
        (fun ts => decide (nowMs - w ≤ ts))).length : Int) < m)
    ∧ ((s2.allowAction nowMs key w m).2 = false →
        lookupMap (s2.allowAction nowMs key w m).1.rateBuckets key =
          some (((lookupMap s2.rateBuckets key).getD []).filter
            (fun ts => decide (nowMs - w ≤ ts))))
    ∧ ((∀ t ∈ calls, T - w ≤ t ∧ t ≤ T) →
        ((runAllow s key w m calls).2.count true) = min calls.length m.toNat)
    ∧ (calls.Pairwise (fun a b => a ≤ b) →
        ∀ T2, ((allowedTimes calls (runAllow s key w m calls).2).countP
          (inWindow w T2)) ≤ m.toNat) := by
  refine ⟨(allowAction_spec s2 nowMs key w m).1,
    (allowAction_spec s2 nowMs key w m).2.1, ?_, ?_⟩
  · intro hin
    have h := runAllow_exact calls s key w m T []
      (by rw [hfresh]; rfl) (by intro a ha; cases ha) hin hm
    simpa using h
  · intro hpair T2
    cases calls with
    | nil => simp [runAllow, allowedTimes]
    | cons t ts =>
      have hlow : ∀ x ∈ t :: ts, t - w ≤ x - w := by
        intro x hx
        rcases List.mem_cons.mp hx with h1 | h1
        · omega
        · have := (List.pairwise_cons.mp hpair).1 x h1
          omega
      have h := runAllow_window_bound (t :: ts) s key w m (t - w) []
        (by rw [hfresh]; rfl) hpair hlow hw (by intro T3; simp) T2
      simpa using h

/-- Witness for `allow_sliding_window` on a fresh key, window 10, max 2 and
three calls at times 0, 1, 2. -/
theorem allow_sliding_window_witness :
    (lookupMap NewStore.rateBuckets "k" = none ∧ 0 ≤ (10 : Int) ∧ 0 ≤ (2 : Int)
      ∧ (∀ t ∈ [(0 : Int), 1, 2], (2 : Int) - 10 ≤ t ∧ t ≤ 2)
      ∧ ([(0 : Int), 1, 2].Pairwise (fun a b => a ≤ b)))
    ∧ ((runAllow NewStore "k" 10 2 [0, 1, 2]).2.count true =
        min [(0 : Int), 1, 2].length (2 : Int).toNat)
    ∧ ((allowedTimes [0, 1, 2] (runAllow NewStore "k" 10 2 [0, 1, 2]).2).countP
        (inWindow 10 2)) ≤ (2 : Int).toNat :=
  ⟨⟨rfl, by decide, by decide, by decide, by decide⟩,
    (allow_sliding_window NewStore NewStore 0 "k" 10 2 [0, 1, 2] 2 rfl
      (by decide) (by decide)).2.2.1 (by decide),
    (allow_sliding_window NewStore NewStore 0 "k" 10 2 [0, 1, 2] 2 rfl
      (by decide) (by decide)).2.2.2 (by decide) 2⟩

theorem char_ofNat_toNat {n : Nat} (h : n < 55296) :
    (Char.ofNat n).toNat = n := by
  have hv : n.isValidChar := Or.inl h
  simp [Char.ofNat, hv]
  rfl

theorem toLowerChar_toNat (c : Char) :
    (toLowerChar c).toNat =
      (if 65 ≤ c.toNat ∧ c.toNat ≤ 90 then c.toNat + 32 else c.toNat) := by
  unfold toLowerChar
  split
  · next h => exact char_ofNat_toNat (by omega)
  · rfl

theorem toLowerChar_idem (c : Char) :
    toLowerChar (toLowerChar c) = toLowerChar c := by
  by_cases h : 65 ≤ c.toNat ∧ c.toNat ≤ 90
  · have ht := toLowerChar_toNat c
    rw [if_pos h] at ht
    show (if 65 ≤ (toLowerChar c).toNat ∧ (toLowerChar c).toNat ≤ 90 then
        Char.ofNat ((toLowerChar c).toNat + 32) else toLowerChar c) = toLowerChar c
    rw [if_neg (by omega)]
  · have hc : toLowerChar c = c := by
      unfold toLowerChar
      rw [if_neg h]
    rw [hc, hc]

theorem isSpaceChar_toLowerChar (c : Char) :
    isSpaceChar (toLowerChar c) = isSpaceChar c := by
  by_cases h : 65 ≤ c.toNat ∧ c.toNat ≤ 90
  · have ht := toLowerChar_toNat c
    rw [if_pos h] at ht
    have h1 : isSpaceChar (toLowerChar c) = false := by
      simp only [isSpaceChar, ht]
      simp only [Bool.or_eq_false_iff, decide_eq_false_iff_not]
      omega
    have h2 : isSpaceChar c = false := by
      simp only [isSpaceChar]
      simp only [Bool.or_eq_false_iff, decide_eq_false_iff_not]
      omega
    rw [h1, h2]
  · have hc : toLowerChar c = c := by
      unfold toLowerChar
      rw [if_neg h]
    rw [hc]

theorem dropWhile_of_head_fails {α : Type} (p : α → Bool) :
    ∀ (l : List α), (∀ x, l.head? = some x → p x = false) →
    l.dropWhile p = l := by
  intro l
  cases l with
  | nil => intro _; rfl
  | cons a t =>
    intro hh
    have := hh a rfl
    rw [List.dropWhile_cons_of_neg (by simp [this])]

theorem dropWhile_rdropWhile_dropWhile {α : Type} (p : α → Bool) (y : List α) :
    List.dropWhile p (List.rdropWhile p (List.dropWhile p y)) =
      List.rdropWhile p (List.dropWhile p y) := by
  apply dropWhile_of_head_fails
  intro x hx
  obtain ⟨t, ht⟩ := List.rdropWhile_prefix p (List.dropWhile p y)
  have h2 : (List.dropWhile p y).head? = some x := by
    rw [← ht]
    cases hL : List.rdropWhile p (List.dropWhile p y) with
    | nil =>
      rw [hL] at hx
      cases hx
    | cons a t2 =>
      rw [hL] at hx
      injection hx with hax
      simp [← hax]
  have hw := List.head?_dropWhile_not p y
  rw [h2] at hw
  exact hw

theorem rdropWhile_map {α β : Type} (f : α → β) (p : β → Bool) (l : List α) :
    List.rdropWhile p (l.map f) = (List.rdropWhile (p ∘ f) l).map f := by
  unfold List.rdropWhile
  rw [← List.map_reverse, List.dropWhile_map, List.map_reverse]

theorem trimSpace_idem (s : String) :
    trimSpace (trimSpace s) = trimSpace s := by
  show String.mk (List.rdropWhile isSpaceChar (List.dropWhile isSpaceChar
      (List.rdropWhile isSpaceChar (List.dropWhile isSpaceChar s.data)))) =
    String.mk (List.rdropWhile isSpaceChar (List.dropWhile isSpaceChar s.data))
  rw [dropWhile_rdropWhile_dropWhile, List.rdropWhile_idempotent]

theorem trimSpace_toLowerString (s : String) :
    trimSpace (toLowerString s) = toLowerString (trimSpace s) := by
  show String.mk (List.rdropWhile isSpaceChar
      (List.dropWhile isSpaceChar (s.data.map toLowerChar))) =
    String.mk ((List.rdropWhile isSpaceChar
      (List.dropWhile isSpaceChar s.data)).map toLowerChar)
  have hpf : (isSpaceChar ∘ toLowerChar) = isSpaceChar :=
    funext isSpaceChar_toLowerChar
  rw [List.dropWhile_map, rdropWhile_map, hpf]

theorem toLowerString_idem (s : String) :
    toLowerString (toLowerString s) = toLowerString s := by
  show String.mk ((s.data.map toLowerChar).map toLowerChar) =
    String.mk (s.data.map toLowerChar)
  rw [List.map_map]
  have hff : (toLowerChar ∘ toLowerChar) = toLowerChar :=
    funext toLowerChar_idem
  rw [hff]

theorem normalizeEmail_idem (e : String) :
    normalizeEmail (normalizeEmail e) = normalizeEmail e := by
  unfold normalizeEmail
  rw [trimSpace_toLowerString, trimSpace_idem, toLowerString_idem]

theorem keysMap_cons {α β : Type} (kv : α × β) (rest : List (α × β)) :
    keysMap (kv :: rest) = kv.1 :: keysMap rest := rfl

theorem keysMap_insertMap {α β : Type} [DecidableEq α] :
    ∀ (m : List (α × β)) (k : α) (v : β),
    keysMap (insertMap m k v) =
      (if k ∈ keysMap m then keysMap m else keysMap m ++ [k]) := by
  intro m
  induction m with
  | nil =>
    intro k v
    simp [insertMap, keysMap]
  | cons kv rest ih =>
    intro k v
    by_cases h : kv.1 = k
    · simp only [insertMap, if_pos h, keysMap_cons]
      rw [if_pos (by rw [h]; exact List.mem_cons_self _ _), h]
    · simp only [insertMap, if_neg h, keysMap_cons]
      rw [ih k v]
      by_cases h2 : k ∈ keysMap rest
      · rw [if_pos h2, if_pos (List.mem_cons_of_mem _ h2)]
      · rw [if_neg h2, if_neg (by
          intro hmem
          rcases List.mem_cons.mp hmem with hcon | hcon
          · exact h hcon.symm
          · exact h2 hcon)]
        rw [List.cons_append]

theorem insertMap_not_mem_append {α β : Type} [DecidableEq α] :
    ∀ (m : List (α × β)) (k : α) (v : β), k ∉ keysMap m →
    insertMap m k v = m ++ [(k, v)] := by
  intro m
  induction m with
  | nil =>
    intro k v _
    rfl
  | cons kv rest ih =>
    intro k v hk
    rw [keysMap_cons] at hk
    have hne : kv.1 ≠ k := by
      intro hcon
      exact hk (by rw [hcon]; exact List.mem_cons_self _ _)
    have hrest : k ∉ keysMap rest := fun hm => hk (List.mem_cons_of_mem _ hm)
    show insertMap (kv :: rest) k v = kv :: (rest ++ [(k, v)])
    simp only [insertMap, if_neg hne]
    rw [ih k v hrest]

theorem load_fold_append :
    ∀ (l acc : List (String × Int)),
    (keysMap l).Nodup →
    (∀ k ∈ keysMap l, normalizeEmail k = k) →
    (∀ k ∈ keysMap l, k ∉ keysMap acc) →
    l.foldl (fun a kv => insertMap a (normalizeEmail kv.1) kv.2) acc =
      acc ++ l := by
  intro l
  induction l with
  | nil =>
    intro acc _ _ _
    simp
  | cons kv rest ih =>
    intro acc hnd hnorm hdisj
    rw [keysMap_cons] at hnd hnorm hdisj
    obtain ⟨hhead, hnd2⟩ := List.nodup_cons.mp hnd
    have hk : normalizeEmail kv.1 = kv.1 := hnorm kv.1 (List.mem_cons_self _ _)
    have hnotin : kv.1 ∉ keysMap acc := hdisj kv.1 (List.mem_cons_self _ _)
    have hacckeys : keysMap (acc ++ [(kv.1, kv.2)]) = keysMap acc ++ [kv.1] := by
      simp [keysMap]
    simp only [List.foldl_cons]
    rw [hk, insertMap_not_mem_append acc kv.1 kv.2 hnotin]
    rw [ih (acc ++ [(kv.1, kv.2)]) hnd2
      (fun k hkk => hnorm k (List.mem_cons_of_mem _ hkk))
      (fun k hkk => by
        rw [hacckeys, List.mem_append]
        rintro (hmem | hmem)
        · exact hdisj k (List.mem_cons_of_mem _ hkk) hmem
        · rw [List.mem_singleton] at hmem
          exact hhead (hmem ▸ hkk))]
    simp

theorem confirmedInv_markConfirmed (s : Store) (nowMs : Int) (email : String)
    (h : ConfirmedInv s) : ConfirmedInv (s.markConfirmed nowMs email) := by
  obtain ⟨hnd, hnorm⟩ := h
  constructor
  · show (keysMap (insertMap s.confirmedEmails (normalizeEmail email) nowMs)).Nodup
    rw [keysMap_insertMap]
    split
    · exact hnd
    · next hnotin =>
      rw [List.nodup_append]
      exact ⟨hnd, List.nodup_singleton _, by
        intro a ha hb
        rw [List.mem_singleton] at hb
        exact hnotin (hb ▸ ha)⟩
  · intro k hk
    have hk2 : k ∈ keysMap
        (insertMap s.confirmedEmails (normalizeEmail email) nowMs) := hk
    rw [keysMap_insertMap] at hk2
    by_cases hmem : normalizeEmail email ∈ keysMap s.confirmedEmails
    · rw [if_pos hmem] at hk2
      exact hnorm k hk2
    · rw [if_neg hmem] at hk2
      rcases List.mem_append.mp hk2 with hm | hm
      · exact hnorm k hm
      · rw [List.mem_singleton] at hm
        rw [hm]
        exact normalizeEmail_idem email

/-- C9: persisting the confirmed-email table and loading it into a fresh
store yields the same confirmed set (byte-for-byte, since both write and
read normalise keys by trimming and lowercasing, and stored keys are already
normalised); a missing or corrupt file leaves the fresh store untouched
(empty table) and is non-fatal; the key-normalisation invariant holds for a
fresh store and is preserved by `markConfirmed`. -/
theorem confirmed_roundtrip (s fresh : Store) (nowMs : Int) (email : String)
    (hinv : ConfirmedInv s) (hfresh : fresh.confirmedEmails = []) :
    (fresh.loadConfirmedFromDisk s.persistConfirmedToDisk).confirmedEmails =
      s.confirmedEmails
    ∧ (∀ e2, (fresh.loadConfirmedFromDisk
        s.persistConfirmedToDisk).isConfirmed e2 = s.isConfirmed e2)
    ∧ fresh.loadConfirmedFromDisk none = fresh
    ∧ ConfirmedInv NewStore
    ∧ ConfirmedInv (s.markConfirmed nowMs email) := by
  have hload : (fresh.loadConfirmedFromDisk
      s.persistConfirmedToDisk).confirmedEmails = s.confirmedEmails := by
    show s.confirmedEmails.foldl
        (fun acc kv => insertMap acc (normalizeEmail kv.1) kv.2)
        fresh.confirmedEmails = s.confirmedEmails
    rw [hfresh]
    have h := load_fold_append s.confirmedEmails [] hinv.1 hinv.2
      (by intro k _ hcon; cases hcon)
    simpa using h
  refine ⟨hload, ?_, rfl, ?_, confirmedInv_markConfirmed s nowMs email hinv⟩
  · intro e2
    show (lookupMap (fresh.loadConfirmedFromDisk
        s.persistConfirmedToDisk).confirmedEmails (normalizeEmail e2)).isSome =
      (lookupMap s.confirmedEmails (normalizeEmail e2)).isSome
    rw [hload]
  · exact ⟨List.nodup_nil, by intro k hk; cases hk⟩

/-- Witness for `confirmed_roundtrip` with one confirmed email. -/
theorem confirmed_roundtrip_witness :
    (ConfirmedInv sConf ∧ NewStore.confirmedEmails = [])
    ∧ ((NewStore.loadConfirmedFromDisk
          sConf.persistConfirmedToDisk).confirmedEmails = sConf.confirmedEmails
      ∧ (NewStore.loadConfirmedFromDisk
          sConf.persistConfirmedToDisk).isConfirmed "a@B.C " = sConf.isConfirmed "a@B.C "
      ∧ NewStore.loadConfirmedFromDisk none = NewStore
      ∧ ConfirmedInv (sConf.markConfirmed 7 "x@y.z")) := by
  have hmain := confirmed_roundtrip sConf NewStore 7 "x@y.z"
    (by unfold ConfirmedInv; decide) rfl
  exact ⟨⟨by unfold ConfirmedInv; decide, rfl⟩,
    hmain.1, hmain.2.1 "a@B.C ", hmain.2.2.1, hmain.2.2.2.2⟩

end Heartbeat
